import Mathlib

/-!
Shallow embedding of `gitex` (src/main.rs): a Git commit-message/diff dataset
extractor.  Commits, trees and diffs are modelled abstractly, following the
spec's description of the repository reader (an external collaborator): a
diff is a sequence of per-line entries, each carrying the changed file's
path, an origin marker and the line content.  Line content is modelled as
`Option String`: `some s` is a line whose raw bytes decode to the UTF-8
string `s`, `none` a line whose bytes are not valid UTF-8 (mirroring
`str::from_utf8` succeeding or failing in the source).  Byte lengths of
strings (Rust `str::len`) are modelled with `String.utf8ByteSize`.
-/

namespace Gitex

/-- The UTF-8 encoding width of a character. -/
def charBytes (c : Char) : Nat :=
  if c.val ≤ 0x7F then 1
  else if c.val ≤ 0x7FF then 2
  else if c.val ≤ 0xFFFF then 3
  else 4

/-- Models Rust `str::len`: the UTF-8 byte length of a string. -/
def strByteLen (s : String) : Nat :=
  s.data.foldl (fun n c => n + charBytes c) 0

/-- Whether the first character list is a prefix of the second. -/
def isPrefixChars : List Char → List Char → Bool
  | [], _ => true
  | _ :: _, [] => false
  | p :: ps, c :: cs => p == c && isPrefixChars ps cs

/-- Whether the second character list occurs contiguously in the first. -/
def containsChars : List Char → List Char → Bool
  | [], needle => needle.isEmpty
  | c :: cs, needle => isPrefixChars needle (c :: cs) || containsChars cs needle

/-- Models Rust `str::contains`. -/
def hasSubstr (s sub : String) : Bool :=
  containsChars s.data sub.data

/-- Models Rust `str::starts_with`. -/
def strStarts (s p : String) : Bool :=
  isPrefixChars p.data s.data

/-- Models Rust `str::to_lowercase` (ASCII range, as in author names). -/
def lowerStr (s : String) : String :=
  ⟨s.data.map Char.toLower⟩

/-- Models Rust `Path::extension()`: the part of the file name after the
last `.`; `none` when the file name has no `.` or its only `.` is the
leading character of the file name. -/
def extOf (path : String) : Option String :=
  let name := (path.data.reverse.takeWhile (fun c => c != '/')).reverse
  let tail := name.drop 1
  if tail.contains '.' then
    some ⟨(tail.reverse.takeWhile (fun c => c != '.')).reverse⟩
  else none

/-- Models Rust `msg.lines().next()`: `none` on empty input, otherwise the
text before the first newline, with a trailing carriage return stripped. -/
def firstLine? (s : String) : Option String :=
  match s.data with
  | [] => none
  | l =>
    let fl := l.takeWhile (fun c => c != '\n')
    some ⟨if fl.getLast? == some '\r' then fl.dropLast else fl⟩

/-- The run configuration (the CLI `Config` fields the core consumes). -/
structure Config where
  extensions : List String
  size : Nat
  message_len_min : Nat
  message_len_max : Nat
  changes_len_min : Nat
  changes_len_max : Nat
deriving Repr, DecidableEq

/-- One line of a tree-to-tree diff, as delivered to the `diff.print`
callback: the path of the delta's new file (if any), the line's origin
marker, and the line content's UTF-8 decoding (`none` if invalid). -/
structure DiffLine where
  path : Option String
  origin : Char
  content : Option String
deriving Repr, DecidableEq

/-- A commit object: identifier, parent identifiers, author display name
(`none` if not valid UTF-8), message (`none` if not valid UTF-8), and the
identifier of its tree. -/
structure Commit where
  id : Nat
  parents : List Nat
  author_name : Option String
  message : Option String
  tree : Nat
deriving Repr, DecidableEq

/-- The read-only repository store: the commit objects, the sequence of
identifiers the revwalk yields from HEAD, the set of tree objects that can
be looked up, and the tree-to-tree diff (`diff a b` diffs tree `a` against
tree `b`; `none` models a diff computation failure). -/
structure Repo where
  commits : List Commit
  head_order : List Nat
  trees : List Nat
  diff : Nat → Nat → Option (List DiffLine)

/-- Models `Repository::find_commit`. -/
def Repo.find (r : Repo) (oid : Nat) : Option Commit :=
  r.commits.find? (fun c => c.id == oid)

/-- An extracted record: `{commit_message, commit_changes}`. -/
structure Record where
  commit_message : String
  commit_changes : String
deriving Repr, DecidableEq

/-- Whether a file path has an extension contained in the configured target
extension set (the `file_path.extension().map(contains).unwrap_or(false)`
check of `get_commit_changes`). -/
def allowedExt (cfg : Config) (path : String) : Bool :=
  ((extOf path).map (fun e => cfg.extensions.contains e)).getD false

/-- The body of the `diff.print` line callback of `get_commit_changes`:
accumulates (changes text, target extensions touched, other extensions
touched) over one diff line. -/
def diffLineStep (cfg : Config) (acc : String × Bool × Bool) (l : DiffLine) :
    String × Bool × Bool :=
  match l.path with
  | none => acc
  | some p =>
    if allowedExt cfg p then
      match l.content with
      | some c => (acc.1 ++ l.origin.toString ++ c, true, acc.2.2)
      | none => (acc.1, true, acc.2.2)
    else
      (acc.1, acc.2.1, true)

/-- `Extractor::get_commit_changes`: diff the parent tree against the commit
tree, accumulate origin+content of every line belonging to a file with a
target extension, and return `none` unless only target-extension files were
changed.  `.error` models the `Err` of a diff computation failure. -/
def get_commit_changes (cfg : Config) (r : Repo) (commit_tree parent_tree : Nat) :
    Except Unit (Option String) :=
  match r.diff parent_tree commit_tree with
  | none => .error ()
  | some lines =>
    let acc := lines.foldl (diffLineStep cfg) ("", false, false)
    if !acc.2.1 || acc.2.2 then .ok none else .ok (some acc.1)

/-- `Extractor::get_commit_message`: first line of the commit message,
`none` when absent or when its byte length is out of bounds. -/
def get_commit_message (cfg : Config) (c : Commit) : Option String := do
  let msg ← c.message
  let first_line ← firstLine? msg
  if strByteLen first_line < cfg.message_len_min
      || strByteLen first_line > cfg.message_len_max then
    none
  else
    some first_line

/-- `Extractor::process_commit`: the filter pipeline.  `.ok none` is a
reject, `.ok (some record)` an accept; `.error ()` models an `Err`
propagated out of the function (the `?` on the tree lookups). -/
def process_commit (cfg : Config) (r : Repo) (processed : List Nat) (c : Commit) :
    Except Unit (Option Record) :=
  if processed.contains c.id then .ok none
  else if c.parents.length == 0 then .ok none
  else
    match r.find (c.parents.headD 0) with
    | none => .ok none
    | some parent =>
      if !r.trees.contains c.tree then .error ()
      else if !r.trees.contains parent.tree then .error ()
      else if (c.author_name.map (fun n => hasSubstr (lowerStr n) "bot")).getD false then
        .ok none
      else
        match get_commit_message cfg c with
        | none => .ok none
        | some commit_message =>
          if strStarts commit_message "Merge pull request"
              || strStarts commit_message "Merge branch" then
            .ok none
          else
            match get_commit_changes cfg r c.tree parent.tree with
            | .error _ => .ok none
            | .ok none => .ok none
            | .ok (some commit_changes) =>
              if strByteLen commit_changes < cfg.changes_len_min
                  || strByteLen commit_changes > cfg.changes_len_max then
                .ok none
              else
                .ok (some ⟨commit_message, commit_changes⟩)

/-- Models `HashSet::insert` on the processed-identifier set. -/
def insertId (l : List Nat) (x : Nat) : List Nat :=
  if l.contains x then l else l ++ [x]

/-- The mutable run state of the extractor: the processed-identifier set,
the accumulated records, and the saved-record count.  `evaluated` and
`accepted` are ghost observation fields mirroring the log lines: an
identifier is appended to `evaluated` when `process_commit` is invoked on a
commit not yet in the processed set (i.e. the call goes past the first
guard), and to `accepted` when that invocation returns a record.  They
influence no control flow. -/
structure RunState where
  processed : List Nat
  records : List Record
  nb_saved : Nat
  evaluated : List Nat
  accepted : List Nat
deriving Repr, DecidableEq

/-- One `process_commit` call site of `Extractor::run`: evaluate commit `c`,
on `Ok(Some(record))` push the record and bump the saved count, then insert
`c.id` into the processed set (plus the ghost trace updates). -/
def evalAndMark (cfg : Config) (r : Repo) (s : RunState) (c : Commit) : RunState :=
  let ev := if s.processed.contains c.id then s.evaluated else s.evaluated ++ [c.id]
  let s1 :=
    match process_commit cfg r s.processed c with
    | .ok (some record) =>
      { s with records := s.records ++ [record], nb_saved := s.nb_saved + 1,
               evaluated := ev, accepted := s.accepted ++ [c.id] }
    | _ => { s with evaluated := ev }
  { s1 with processed := insertId s1.processed c.id }

/-- One iteration of the merge-parent loop of `Extractor::run`: look up the
parent; on success evaluate and mark it, on failure do nothing
(`if let Ok(parent) = commit.parent(parent_index)`). -/
def parentStep (cfg : Config) (r : Repo) (s : RunState) (pid : Nat) : RunState :=
  match r.find pid with
  | some parent => evalAndMark cfg r s parent
  | none => s

/-- The body of `Extractor::run` for one revwalk commit: a merge commit
(more than one parent) has each resolvable parent evaluated and marked; any
other commit is evaluated and marked itself. -/
def stepCommit (cfg : Config) (r : Repo) (s : RunState) (c : Commit) : RunState :=
  if 1 < c.parents.length then
    c.parents.foldl (parentStep cfg r) s
  else
    evalAndMark cfg r s c

/-- The revwalk loop of `Extractor::run`: stop when the saved count has
reached the target size, fail (fatally) when a revwalk identifier cannot be
resolved to a commit, otherwise process the commit and continue. -/
def runLoop (cfg : Config) (r : Repo) : List Nat → RunState → Except Unit RunState
  | [], s => .ok s
  | oid :: rest, s =>
    if cfg.size ≤ s.nb_saved then .ok s
    else
      match r.find oid with
      | none => .error ()
      | some c => runLoop cfg r rest (stepCommit cfg r s c)

/-- The initial run state. -/
def initState : RunState := ⟨[], [], 0, [], []⟩

/-- `Extractor::run` up to the point where the dataset is handed to the
writer: the final in-memory state of the traversal. -/
def run (cfg : Config) (r : Repo) : Except Unit RunState :=
  runLoop cfg r r.head_order initState

/-! ### Helper definitions used to state properties -/

/-- Whether a diff line belongs to a file with a target extension. -/
def touchesTarget (cfg : Config) (l : DiffLine) : Bool :=
  match l.path with
  | some p => allowedExt cfg p
  | none => false

/-- Whether a diff line belongs to a file with a disallowed or missing
extension. -/
def touchesForeign (cfg : Config) (l : DiffLine) : Bool :=
  match l.path with
  | some p => !allowedExt cfg p
  | none => false

/-- The text one diff line contributes to the accumulated changes: origin
marker followed by content, for a valid-UTF-8 line of a target-extension
file; nothing otherwise. -/
def contribStr (cfg : Config) (l : DiffLine) : String :=
  match l.path, l.content with
  | some p, some c => if allowedExt cfg p then l.origin.toString ++ c else ""
  | _, _ => ""

/-- The changes text accumulated over a diff: the concatenation of the
per-line contributions (only valid-UTF-8 lines of target-extension files
contribute). -/
def pureChangesStr (cfg : Config) : List DiffLine → String
  | [] => ""
  | l :: ls => contribStr cfg l ++ pureChangesStr cfg ls

/-- The pure marking a merge-parent iteration performs on the processed
set, ignoring the evaluation outcome entirely. -/
def markParent (r : Repo) (acc : List Nat) (pid : Nat) : List Nat :=
  match r.find pid with
  | some parent => insertId acc parent.id
  | none => acc

/-- The run-state invariant backing deduplication: the ghost trace of
evaluated identifiers has no duplicate, and every evaluated identifier is
in the processed set. -/
def TraceInv (s : RunState) : Prop :=
  s.evaluated.Nodup ∧ ∀ x ∈ s.evaluated, x ∈ s.processed

/-! ### Concrete repositories used by scenarios and counterexamples -/

/-- Configuration with target size 1 (used for the overshoot analysis). -/
def cfgA : Config := ⟨["py"], 1, 5, 20, 1, 100⟩

/-- A repository whose head is a two-parent merge, both parents qualifying:
the merge-parent loop saves both, overshooting a target size of 1. -/
def repoA : Repo where
  commits :=
    [⟨0, [1, 2], some "carol", some "merge work", 5⟩,
     ⟨1, [3], some "alice", some "fix bug", 10⟩,
     ⟨2, [3], some "dave", some "fix more", 20⟩,
     ⟨3, [], some "alice", some "init code", 30⟩]
  head_order := [0, 1, 2, 3]
  trees := [5, 10, 20, 30]
  diff := fun a b =>
    if a == 30 && b == 10 then some [⟨some "a.py", '+', some "x\n"⟩]
    else if a == 30 && b == 20 then some [⟨some "b.py", '+', some "y\n"⟩]
    else some []

/-- Configuration with a large target size (no early stop). -/
def cfgB : Config := ⟨["py"], 100, 5, 20, 1, 100⟩

/-- The head commit of `repoB`: a two-parent merge. -/
def commitB0 : Commit := ⟨0, [1, 2], some "carol", some "merge a", 5⟩

/-- The first parent of `repoB`'s head: itself a two-parent merge, with an
ordinary subject and a pure target-extension diff against its first
parent. -/
def commitB1 : Commit := ⟨1, [3, 4], some "alice", some "fix nested bug", 10⟩

/-- A repository whose head merge has a parent that is itself a merge
commit (id 1) with an ordinary message and a pure target-extension diff
against its first parent. -/
def repoB : Repo where
  commits :=
    [commitB0,
     commitB1,
     ⟨2, [3], some "dave", some "fix other bug", 20⟩,
     ⟨3, [5], some "erin", some "fix base bug", 30⟩,
     ⟨4, [5], some "frank", some "fix more bugs", 40⟩,
     ⟨5, [], some "gil", some "init code", 50⟩]
  head_order := [0, 1, 2, 3, 4, 5]
  trees := [5, 10, 20, 30, 40, 50]
  diff := fun a b =>
    if a == 30 && b == 10 then some [⟨some "n.py", '+', some "n\n"⟩]
    else if a == 30 && b == 20 then some [⟨some "o.py", '+', some "o\n"⟩]
    else if a == 50 && b == 30 then some [⟨some "p.py", '+', some "p\n"⟩]
    else if a == 50 && b == 40 then some [⟨some "q.py", '+', some "q\n"⟩]
    else some []

/-- The configuration of Scenario A: `extensions=["py"], msg_min=5,
msg_max=20, chg_min=1, chg_max=100`. -/
def cfgD : Config := ⟨["py"], 10, 5, 20, 1, 100⟩

/-- The single non-merge commit of Scenario A, subject `"fix bug"`. -/
def commitD : Commit := ⟨1, [2], some "alice", some "fix bug", 10⟩

/-- The diff of Scenario A's commit against its parent: three added lines
in `a.py`, nothing else. -/
def linesD : List DiffLine :=
  [⟨some "a.py", '+', some "line1\n"⟩,
   ⟨some "a.py", '+', some "line2\n"⟩,
   ⟨some "a.py", '+', some "line3\n"⟩]

/-- Scenario A: one non-merge commit whose diff against its parent adds
exactly three lines to `a.py` and changes nothing else. -/
def repoD : Repo where
  commits := [commitD, ⟨2, [], some "alice", some "init code", 20⟩]
  head_order := [1, 2]
  trees := [10, 20]
  diff := fun a b => if a == 20 && b == 10 then some linesD else some []

/-- The head commit of `repoE`: a two-parent merge. -/
def mergeE : Commit := ⟨0, [1, 2], some "carol", some "merge stuff", 5⟩

/-- Scenario E: a two-parent merge at the head, parent 1 qualifying and
parent 2 authored by a bot. -/
def repoE : Repo where
  commits :=
    [mergeE,
     ⟨1, [3], some "alice", some "fix alpha bug", 10⟩,
     ⟨2, [3], some "dependabot", some "fix beta bug", 20⟩,
     ⟨3, [], some "gil", some "init code", 30⟩]
  head_order := [0, 1, 2, 3]
  trees := [5, 10, 20, 30]
  diff := fun a b =>
    if a == 30 && b == 10 then some [⟨some "e.py", '+', some "e\n"⟩]
    else if a == 30 && b == 20 then some [⟨some "f.py", '+', some "f\n"⟩]
    else some []

/-- A commit whose tree identifier is not in the repository's tree store,
so that both tree lookups of `process_commit` fail. -/
def commitF : Commit := ⟨1, [2], some "alice", some "fix tree bug", 99⟩

/-- A commit whose trees resolve but whose diff computation fails. -/
def commitFd : Commit := ⟨4, [2], some "alice", some "fix diff bug", 30⟩

/-- The root commit of `repoF`, parent of both of its other commits. -/
def commitFg : Commit := ⟨2, [], some "gil", some "init code", 30⟩

/-- A repository in which every diff computation fails and commit 1's tree
is missing from the store. -/
def repoF : Repo where
  commits := [commitF, commitFd, commitFg]
  head_order := [1, 4, 2]
  trees := [30]
  diff := fun _ _ => none

/-- A single diff line of a target-extension file whose raw bytes are not
valid UTF-8. -/
def linesG : List DiffLine := [⟨some "g.py", '+', none⟩]

/-- A repository store exposing only the invalid-UTF-8 diff `linesG`
between trees 1 and 2. -/
def repoG : Repo where
  commits := []
  head_order := []
  trees := []
  diff := fun a b => if a == 1 && b == 2 then some linesG else none

/-- The final run state on `repoA` with target size 1: two records saved. -/
def stateA : RunState :=
  ⟨[1, 2], [⟨"fix bug", "+x\n"⟩, ⟨"fix more", "+y\n"⟩], 2, [1, 2], [1, 2]⟩

/-- The final run state on `repoB`: the nested merge commit 1 is evaluated,
accepted and marked processed. -/
def stateB : RunState :=
  ⟨[1, 2, 3, 4, 5],
   [⟨"fix nested bug", "+n\n"⟩, ⟨"fix other bug", "+o\n"⟩,
    ⟨"fix base bug", "+p\n"⟩, ⟨"fix more bugs", "+q\n"⟩],
   4, [1, 2, 3, 4, 5], [1, 2, 3, 4]⟩

/-- The final run state of Scenario A: exactly one record. -/
def stateD : RunState :=
  ⟨[1, 2], [⟨"fix bug", "+line1\n+line2\n+line3\n"⟩], 1, [1, 2], [1]⟩

/-- The final run state of Scenario E: one record, both merge parents
marked processed. -/
def stateE : RunState :=
  ⟨[1, 2, 3], [⟨"fix alpha bug", "+e\n"⟩], 1, [1, 2, 3], [1]⟩

/-! ### Lemmas about the processed-set and the traversal state -/

theorem mem_insertId {l : List Nat} {x y : Nat} :
    x ∈ insertId l y ↔ x ∈ l ∨ x = y := by
  unfold insertId
  split
  · next h =>
    constructor
    · exact Or.inl
    · rintro (hx | rfl)
      · exact hx
      · simpa using h
  · simp

theorem insertId_subset {l : List Nat} {y : Nat} : ∀ x ∈ l, x ∈ insertId l y :=
  fun _ hx => mem_insertId.mpr (Or.inl hx)

theorem find_eq_some {r : Repo} {oid : Nat} {c : Commit}
    (h : r.find oid = some c) : c ∈ r.commits ∧ c.id = oid := by
  unfold Repo.find at h
  refine ⟨List.mem_of_find?_eq_some h, ?_⟩
  have hp := List.find?_some h
  simpa using hp

theorem evalAndMark_processed (cfg : Config) (r : Repo) (s : RunState) (c : Commit) :
    (evalAndMark cfg r s c).processed = insertId s.processed c.id := by
  simp only [evalAndMark]
  split <;> rfl

theorem evalAndMark_evaluated (cfg : Config) (r : Repo) (s : RunState) (c : Commit) :
    (evalAndMark cfg r s c).evaluated =
      if s.processed.contains c.id then s.evaluated else s.evaluated ++ [c.id] := by
  simp only [evalAndMark]
  split <;> rfl

theorem evalAndMark_accepted (cfg : Config) (r : Repo) (s : RunState) (c : Commit) :
    (evalAndMark cfg r s c).accepted = s.accepted ∨
      (evalAndMark cfg r s c).accepted = s.accepted ++ [c.id] := by
  simp only [evalAndMark]
  split
  · exact Or.inr rfl
  · exact Or.inl rfl

theorem evalAndMark_nb (cfg : Config) (r : Repo) (s : RunState) (c : Commit) :
    (evalAndMark cfg r s c).nb_saved ≤ s.nb_saved + 1 := by
  simp only [evalAndMark]
  split
  · exact Nat.le_refl _
  · exact Nat.le_succ _

theorem evalAndMark_evaluated_mem {cfg : Config} {r : Repo} {s : RunState} {c : Commit}
    {x : Nat} (h : x ∈ (evalAndMark cfg r s c).evaluated) :
    x ∈ s.evaluated ∨ x = c.id := by
  rw [evalAndMark_evaluated] at h
  revert h
  split
  · exact Or.inl
  · intro h
    rcases List.mem_append.mp h with h | h
    · exact Or.inl h
    · exact Or.inr (by simpa using h)

theorem evalAndMark_accepted_mem {cfg : Config} {r : Repo} {s : RunState} {c : Commit}
    {x : Nat} (h : x ∈ (evalAndMark cfg r s c).accepted) :
    x ∈ s.accepted ∨ x = c.id := by
  rcases evalAndMark_accepted cfg r s c with he | he <;> rw [he] at h
  · exact Or.inl h
  · rcases List.mem_append.mp h with h | h
    · exact Or.inl h
    · exact Or.inr (by simpa using h)

theorem evalAndMark_evaluated_sub {cfg : Config} {r : Repo} {s : RunState} {c : Commit} :
    ∀ x ∈ s.evaluated, x ∈ (evalAndMark cfg r s c).evaluated := by
  intro x hx
  rw [evalAndMark_evaluated]
  split
  · exact hx
  · exact List.mem_append.mpr (Or.inl hx)

theorem evalAndMark_processed_sub {cfg : Config} {r : Repo} {s : RunState} {c : Commit} :
    ∀ x ∈ s.processed, x ∈ (evalAndMark cfg r s c).processed := by
  intro x hx
  rw [evalAndMark_processed]
  exact insertId_subset x hx

theorem evalAndMark_inv {cfg : Config} {r : Repo} {s : RunState} {c : Commit}
    (hs : TraceInv s) : TraceInv (evalAndMark cfg r s c) := by
  obtain ⟨hnd, hsub⟩ := hs
  rw [TraceInv, evalAndMark_evaluated, evalAndMark_processed]
  split
  · next h =>
    exact ⟨hnd, fun x hx => insertId_subset x (hsub x hx)⟩
  · next h =>
    have hni : c.id ∉ s.evaluated := fun hc => by
      have := hsub _ hc
      simp at h
      exact h this
    constructor
    · rw [← List.concat_eq_append]
      exact List.Nodup.concat hni hnd
    · intro x hx
      rcases List.mem_append.mp hx with hx | hx
      · exact insertId_subset x (hsub x hx)
      · exact mem_insertId.mpr (Or.inr (by simpa using hx))

theorem parentStep_processed (cfg : Config) (r : Repo) (s : RunState) (pid : Nat) :
    (parentStep cfg r s pid).processed = markParent r s.processed pid := by
  unfold parentStep markParent
  cases r.find pid with
  | some p => exact evalAndMark_processed cfg r s p
  | none => rfl

theorem parentStep_nb (cfg : Config) (r : Repo) (s : RunState) (pid : Nat) :
    (parentStep cfg r s pid).nb_saved ≤ s.nb_saved + 1 := by
  unfold parentStep
  cases r.find pid with
  | some p => exact evalAndMark_nb cfg r s p
  | none => exact Nat.le_succ _

theorem parentStep_inv {cfg : Config} {r : Repo} {s : RunState} {pid : Nat}
    (hs : TraceInv s) : TraceInv (parentStep cfg r s pid) := by
  unfold parentStep
  cases r.find pid with
  | some p => exact evalAndMark_inv hs
  | none => exact hs

theorem parentStep_evaluated_mem {cfg : Config} {r : Repo} {s : RunState} {pid x : Nat}
    (h : x ∈ (parentStep cfg r s pid).evaluated) : x ∈ s.evaluated ∨ x = pid := by
  revert h
  unfold parentStep
  cases hf : r.find pid with
  | some p =>
    intro h
    rcases evalAndMark_evaluated_mem h with h | h
    · exact Or.inl h
    · exact Or.inr (h.trans (find_eq_some hf).2)
  | none => exact Or.inl

theorem parentStep_accepted_mem {cfg : Config} {r : Repo} {s : RunState} {pid x : Nat}
    (h : x ∈ (parentStep cfg r s pid).accepted) : x ∈ s.accepted ∨ x = pid := by
  revert h
  unfold parentStep
  cases hf : r.find pid with
  | some p =>
    intro h
    rcases evalAndMark_accepted_mem h with h | h
    · exact Or.inl h
    · exact Or.inr (h.trans (find_eq_some hf).2)
  | none => exact Or.inl

theorem parentStep_evaluated_sub {cfg : Config} {r : Repo} {s : RunState} {pid : Nat} :
    ∀ x ∈ s.evaluated, x ∈ (parentStep cfg r s pid).evaluated := by
  unfold parentStep
  cases r.find pid with
  | some p => exact evalAndMark_evaluated_sub
  | none => exact fun _ hx => hx

theorem parentStep_processed_sub {cfg : Config} {r : Repo} {s : RunState} {pid : Nat} :
    ∀ x ∈ s.processed, x ∈ (parentStep cfg r s pid).processed := by
  unfold parentStep
  cases r.find pid with
  | some p => exact evalAndMark_processed_sub
  | none => exact fun _ hx => hx

theorem foldParents_processed (cfg : Config) (r : Repo) :
    ∀ (ps : List Nat) (s : RunState),
      (ps.foldl (parentStep cfg r) s).processed = ps.foldl (markParent r) s.processed
  | [], _ => rfl
  | p :: ps, s => by
    rw [List.foldl_cons, List.foldl_cons, foldParents_processed cfg r ps,
      parentStep_processed]

theorem foldParents_nb (cfg : Config) (r : Repo) :
    ∀ (ps : List Nat) (s : RunState),
      (ps.foldl (parentStep cfg r) s).nb_saved ≤ s.nb_saved + ps.length
  | [], _ => Nat.le_refl _
  | p :: ps, s => by
    rw [List.foldl_cons]
    have h1 := foldParents_nb cfg r ps (parentStep cfg r s p)
    have h2 := parentStep_nb cfg r s p
    simp only [List.length_cons]
    omega

theorem foldParents_inv {cfg : Config} {r : Repo} :
    ∀ {ps : List Nat} {s : RunState}, TraceInv s →
      TraceInv (ps.foldl (parentStep cfg r) s) := by
  intro ps
  induction ps with
  | nil => exact fun h => h
  | cons p ps ih =>
    intro s hs
    rw [List.foldl_cons]
    exact ih (parentStep_inv hs)

theorem foldParents_evaluated_mem {cfg : Config} {r : Repo} {x : Nat} :
    ∀ {ps : List Nat} {s : RunState},
      x ∈ (ps.foldl (parentStep cfg r) s).evaluated → x ∈ s.evaluated ∨ x ∈ ps := by
  intro ps
  induction ps with
  | nil => exact Or.inl
  | cons p ps ih =>
    intro s h
    rw [List.foldl_cons] at h
    rcases ih h with h | h
    · rcases parentStep_evaluated_mem h with h | h
      · exact Or.inl h
      · exact Or.inr (by simp [h])
    · exact Or.inr (List.mem_cons_of_mem _ h)

theorem foldParents_accepted_mem {cfg : Config} {r : Repo} {x : Nat} :
    ∀ {ps : List Nat} {s : RunState},
      x ∈ (ps.foldl (parentStep cfg r) s).accepted → x ∈ s.accepted ∨ x ∈ ps := by
  intro ps
  induction ps with
  | nil => exact Or.inl
  | cons p ps ih =>
    intro s h
    rw [List.foldl_cons] at h
    rcases ih h with h | h
    · rcases parentStep_accepted_mem h with h | h
      · exact Or.inl h
      · exact Or.inr (by simp [h])
    · exact Or.inr (List.mem_cons_of_mem _ h)

theorem foldParents_processed_mem {r : Repo} {x : Nat} :
    ∀ {ps : List Nat} {acc : List Nat},
      x ∈ ps.foldl (markParent r) acc → x ∈ acc ∨ x ∈ ps := by
  intro ps
  induction ps with
  | nil => exact Or.inl
  | cons p ps ih =>
    intro acc h
    rw [List.foldl_cons] at h
    rcases ih h with h | h
    · revert h
      unfold markParent
      cases hf : r.find p with
      | some q =>
        intro h
        rcases mem_insertId.mp h with h | h
        · exact Or.inl h
        · exact Or.inr (by simp [h.trans (find_eq_some hf).2])
      | none => exact Or.inl
    · exact Or.inr (List.mem_cons_of_mem _ h)

theorem foldParents_evaluated_sub {cfg : Config} {r : Repo} :
    ∀ {ps : List Nat} {s : RunState},
      ∀ x ∈ s.evaluated, x ∈ (ps.foldl (parentStep cfg r) s).evaluated := by
  intro ps
  induction ps with
  | nil => exact fun _ hx => hx
  | cons p ps ih =>
    intro s x hx
    rw [List.foldl_cons]
    exact ih _ (parentStep_evaluated_sub x hx)

theorem foldParents_processed_sub {cfg : Config} {r : Repo} :
    ∀ {ps : List Nat} {s : RunState},
      ∀ x ∈ s.processed, x ∈ (ps.foldl (parentStep cfg r) s).processed := by
  intro ps
  induction ps with
  | nil => exact fun _ hx => hx
  | cons p ps ih =>
    intro s x hx
    rw [List.foldl_cons]
    exact ih _ (parentStep_processed_sub x hx)

theorem foldParents_marks {cfg : Config} {r : Repo} :
    ∀ {ps : List Nat} {s : RunState},
      (∀ pid ∈ ps, (r.find pid).isSome) →
      ∀ pid ∈ ps, pid ∈ (ps.foldl (parentStep cfg r) s).processed ∧
        (pid ∈ (ps.foldl (parentStep cfg r) s).evaluated ∨ pid ∈ s.processed) := by
  intro ps
  induction ps with
  | nil => intro s _ pid h; cases h
  | cons p ps ih =>
    intro s hres pid hmem
    obtain ⟨q, hq⟩ := Option.isSome_iff_exists.mp (hres p (List.mem_cons_self p ps))
    have hqid := (find_eq_some hq).2
    rw [List.foldl_cons]
    rcases List.mem_cons.mp hmem with rfl | hmem
    · constructor
      · refine foldParents_processed_sub pid ?_
        unfold parentStep
        rw [hq, evalAndMark_processed]
        exact mem_insertId.mpr (Or.inr hqid.symm)
      · by_cases hp : pid ∈ s.processed
        · exact Or.inr hp
        · refine Or.inl (foldParents_evaluated_sub pid ?_)
          unfold parentStep
          rw [hq, evalAndMark_evaluated, hqid]
          have : s.processed.contains pid = false := by
            simpa using hp
          rw [this]
          simp
    · have := ih (s := parentStep cfg r s p)
        (fun x hx => hres x (List.mem_cons_of_mem _ hx)) pid hmem
      refine ⟨this.1, ?_⟩
      rcases this.2 with h | h
      · exact Or.inl h
      · revert h
        unfold parentStep
        rw [hq, evalAndMark_processed]
        intro h
        rcases mem_insertId.mp h with h | h
        · exact Or.inr h
        · by_cases hp : pid ∈ s.processed
          · exact Or.inr hp
          · subst h
            refine Or.inl (foldParents_evaluated_sub q.id ?_)
            rw [evalAndMark_evaluated]
            have hc : s.processed.contains q.id = false := by simpa using hp
            rw [hc]
            simp

/-! ### Lemmas about the diff accumulator -/

theorem diffLineStep_spec (cfg : Config) (acc : String × Bool × Bool) (l : DiffLine) :
    diffLineStep cfg acc l =
      (acc.1 ++ contribStr cfg l,
       acc.2.1 || touchesTarget cfg l,
       acc.2.2 || touchesForeign cfg l) := by
  obtain ⟨a, t, f⟩ := acc
  obtain ⟨path, origin, content⟩ := l
  unfold diffLineStep contribStr touchesTarget touchesForeign
  cases path with
  | none => simp [String.append_empty]
  | some p =>
    by_cases hA : allowedExt cfg p
    · cases content <;> simp [hA, String.append_empty, String.append_assoc]
    · cases content <;> simp [hA, String.append_empty]

theorem diffFold_spec (cfg : Config) :
    ∀ (lines : List DiffLine) (acc : String × Bool × Bool),
      lines.foldl (diffLineStep cfg) acc =
        (acc.1 ++ pureChangesStr cfg lines,
         acc.2.1 || lines.any (touchesTarget cfg),
         acc.2.2 || lines.any (touchesForeign cfg))
  | [], acc => by
    simp [pureChangesStr, String.append_empty]
  | l :: ls, acc => by
    rw [List.foldl_cons, diffLineStep_spec, diffFold_spec cfg ls]
    simp [pureChangesStr, String.append_assoc, Bool.or_assoc]

theorem touchesForeign_of_target {cfg : Config} {l : DiffLine}
    (h : touchesTarget cfg l = true) : touchesForeign cfg l = false := by
  obtain ⟨path, origin, content⟩ := l
  revert h
  unfold touchesTarget touchesForeign
  cases path with
  | none => intro h; cases h
  | some p => intro h; simp_all

theorem contribStr_of_content_none {cfg : Config} {l : DiffLine}
    (h : l.content = none) : contribStr cfg l = "" := by
  obtain ⟨path, origin, content⟩ := l
  cases h
  unfold contribStr
  cases path <;> rfl

theorem pureChangesStr_of_all_none {cfg : Config} :
    ∀ {lines : List DiffLine}, (∀ l ∈ lines, l.content = none) →
      pureChangesStr cfg lines = ""
  | [], _ => rfl
  | l :: ls, h => by
    rw [pureChangesStr, contribStr_of_content_none (h l (List.mem_cons_self l ls)),
      pureChangesStr_of_all_none (fun x hx => h x (List.mem_cons_of_mem _ hx)),
      String.empty_append]

theorem get_commit_changes_eq (cfg : Config) (r : Repo) {ct pt : Nat}
    {lines : List DiffLine} (hd : r.diff pt ct = some lines) :
    get_commit_changes cfg r ct pt =
      if !lines.any (touchesTarget cfg) || lines.any (touchesForeign cfg)
      then .ok none
      else .ok (some (pureChangesStr cfg lines)) := by
  unfold get_commit_changes
  rw [hd]
  dsimp only
  rw [diffFold_spec]
  simp [String.empty_append]

/-! ### Lemmas about the filter pipeline -/

theorem process_commit_accept {cfg : Config} {r : Repo} {processed : List Nat}
    {c : Commit} {rcd : Record}
    (h : process_commit cfg r processed c = .ok (some rcd)) :
    ∃ parent, r.find (c.parents.headD 0) = some parent ∧
      get_commit_changes cfg r c.tree parent.tree = .ok (some rcd.commit_changes) := by
  unfold process_commit at h
  split at h
  · cases h
  split at h
  · cases h
  split at h
  · cases h
  next parent hfind =>
  refine ⟨parent, hfind, ?_⟩
  split at h
  · cases h
  split at h
  · cases h
  split at h
  · cases h
  split at h
  · cases h
  next msg hmsg =>
  split at h
  · cases h
  split at h
  · cases h
  · cases h
  next changes hchg =>
  split at h
  · cases h
  · cases h
    exact hchg

/-! ### Lemmas about one traversal step and the revwalk loop -/

theorem stepCommit_nb (cfg : Config) (r : Repo) (s : RunState) (c : Commit) :
    (stepCommit cfg r s c).nb_saved ≤ s.nb_saved + max 1 c.parents.length := by
  unfold stepCommit
  split
  · have := foldParents_nb cfg r c.parents s
    have h2 : c.parents.length ≤ max 1 c.parents.length := Nat.le_max_right _ _
    omega
  · have := evalAndMark_nb cfg r s c
    have h2 : 1 ≤ max 1 c.parents.length := Nat.le_max_left _ _
    omega

theorem stepCommit_inv {cfg : Config} {r : Repo} {s : RunState} {c : Commit}
    (hs : TraceInv s) : TraceInv (stepCommit cfg r s c) := by
  unfold stepCommit
  split
  · exact foldParents_inv hs
  · exact evalAndMark_inv hs

theorem runLoop_stop (cfg : Config) (r : Repo) (l : List Nat) (s : RunState)
    (h : cfg.size ≤ s.nb_saved) : runLoop cfg r l s = .ok s := by
  cases l with
  | nil => rfl
  | cons o rest => simp [runLoop, h]

theorem runLoop_inv {cfg : Config} {r : Repo} :
    ∀ {l : List Nat} {s s' : RunState}, TraceInv s →
      runLoop cfg r l s = .ok s' → TraceInv s' := by
  intro l
  induction l with
  | nil =>
    intro s s' hs h
    cases h
    exact hs
  | cons o rest ih =>
    intro s s' hs h
    rw [runLoop] at h
    split at h
    · cases h
      exact hs
    · revert h
      cases r.find o with
      | none => intro h; cases h
      | some c => exact fun h => ih (stepCommit_inv hs) h

theorem runLoop_nb {cfg : Config} {r : Repo} {P : Nat} (hP1 : 1 ≤ P)
    (hP : ∀ c ∈ r.commits, c.parents.length ≤ P) :
    ∀ {l : List Nat} {s s' : RunState}, s.nb_saved ≤ cfg.size - 1 + P →
      runLoop cfg r l s = .ok s' → s'.nb_saved ≤ cfg.size - 1 + P := by
  intro l
  induction l with
  | nil =>
    intro s s' hs h
    cases h
    exact hs
  | cons o rest ih =>
    intro s s' hs h
    rw [runLoop] at h
    split at h
    · cases h
      exact hs
    · next hlt =>
      revert h
      cases hf : r.find o with
      | none => intro h; cases h
      | some c =>
        intro h
        refine ih ?_ h
        have hc := stepCommit_nb cfg r s c
        have hcp : c.parents.length ≤ P := hP c (find_eq_some hf).1
        have : max 1 c.parents.length ≤ P := by omega
        omega

/-! ### Claims -/

/-- C1, counterexample: with target size 1 and a head merge whose two
parents both qualify, the run finishes with 2 saved records — the final
saved count exceeds the configured target size. -/
theorem C1_counterexample :
    cfgA.size = 1 ∧ run cfgA repoA = .ok stateA ∧ cfgA.size < stateA.nb_saved :=
  ⟨rfl, rfl, by decide⟩

/-- C1 (amended): the traversal stops before visiting any further history
commit once the saved count reaches `N`, but the merge-parent loop is not
interrupted by the size check, so the final saved count is bounded only by
`N - 1 + P` where `P ≥ 1` bounds the parent count of every commit in the
repository (a merge visited with `N - 1` records saved may accept up to
`P` of its parents). -/
theorem C1_amended (cfg : Config) (r : Repo) (P : Nat) (hP1 : 1 ≤ P)
    (hP : ∀ c ∈ r.commits, c.parents.length ≤ P) :
    (∀ s', run cfg r = .ok s' → s'.nb_saved ≤ cfg.size - 1 + P) ∧
    (∀ l s, cfg.size ≤ s.nb_saved → runLoop cfg r l s = .ok s) := by
  constructor
  · intro s' h
    exact runLoop_nb hP1 hP (Nat.zero_le _) h
  · exact fun l s h => runLoop_stop cfg r l s h

/-- C1, witness: the amended bound instantiated on `repoA` (maximum parent
count 2, target size 1): the final saved count 2 is within `1 - 1 + 2`. -/
theorem C1_witness :
    ((1 ≤ 2) ∧ ∀ c ∈ repoA.commits, c.parents.length ≤ 2) ∧
      stateA.nb_saved ≤ cfgA.size - 1 + 2 :=
  ⟨⟨by decide, by decide⟩,
    (C1_amended cfgA repoA 2 (by decide) (by decide)).1 stateA rfl⟩

/-- C2, counterexample: in `repoB` the commit with identifier 1 has two
parents (a merge commit), yet the run produces a Record whose source is
that commit itself — it is reached as a parent of the head merge and
evaluated by the pipeline, which has no parent-count guard. -/
theorem C2_counterexample :
    run cfgB repoB = .ok stateB ∧ (1 : Nat) ∈ stateB.accepted ∧
      Repo.find repoB 1 = some commitB1 ∧ commitB1.parents.length = 2 ∧
      stateB.records.headD ⟨"", ""⟩ = ⟨"fix nested bug", "+n\n"⟩ :=
  ⟨rfl, by decide, rfl, rfl, rfl⟩

/-- C2 (amended): a merge commit is never evaluated (nor accepted) by the
visit of that commit itself from the history iterator — that visit only
evaluates its parents; a merge commit can however still yield a Record when
it is reached as the parent of another merge commit. -/
theorem C2_amended (cfg : Config) (r : Repo) (s : RunState) (c : Commit)
    (hm : 1 < c.parents.length) (hself : c.id ∉ c.parents)
    (hev : c.id ∉ s.evaluated) (hacc : c.id ∉ s.accepted) :
    c.id ∉ (stepCommit cfg r s c).evaluated ∧
      c.id ∉ (stepCommit cfg r s c).accepted := by
  unfold stepCommit
  rw [if_pos hm]
  constructor
  · intro h
    rcases foldParents_evaluated_mem h with h | h
    · exact hev h
    · exact hself h
  · intro h
    rcases foldParents_accepted_mem h with h | h
    · exact hacc h
    · exact hself h

/-- C2, witness: the amended statement instantiated on `repoE`'s head
merge from the initial state. -/
theorem C2_witness :
    ((1 < mergeE.parents.length) ∧ (mergeE.id ∉ mergeE.parents) ∧
      (mergeE.id ∉ initState.evaluated) ∧ (mergeE.id ∉ initState.accepted)) ∧
      mergeE.id ∉ (stepCommit cfgB repoE initState mergeE).evaluated ∧
      mergeE.id ∉ (stepCommit cfgB repoE initState mergeE).accepted :=
  ⟨⟨by decide, by decide, by decide, by decide⟩,
    C2_amended cfgB repoE initState mergeE (by decide) (by decide)
      (by decide) (by decide)⟩

/-- C3: within one run no commit identifier is evaluated by the filter
pipeline more than once: the ghost trace of identifiers that pass the
first (processed-set) guard has no duplicates, whether commits are reached
directly or via merge-parent expansion. -/
theorem C3_no_double_evaluation (cfg : Config) (r : Repo) (s : RunState)
    (h : run cfg r = .ok s) : s.evaluated.Nodup := by
  have hinit : TraceInv initState := ⟨List.nodup_nil, fun x hx => by cases hx⟩
  exact (runLoop_inv hinit h).1

/-- C3, witness: the dedup property instantiated on the Scenario A run. -/
theorem C3_witness : run cfgD repoD = .ok stateD ∧ stateD.evaluated.Nodup :=
  ⟨rfl, C3_no_double_evaluation cfgD repoD stateD rfl⟩

/-- C4: Scenario A — a single non-merge commit adding `line1`, `line2`,
`line3` to `a.py` with subject `"fix bug"` under
`extensions=["py"], msg_min=5, msg_max=20, chg_min=1, chg_max=100` yields a
run with exactly one Record, with message `"fix bug"` and changes
`"+line1\n+line2\n+line3\n"`. -/
theorem C4_scenario_A :
    run cfgD repoD = .ok stateD ∧
      stateD.records = [⟨"fix bug", "+line1\n+line2\n+line3\n"⟩] :=
  ⟨rfl, rfl⟩

/-- C5: extension purity of the diff extraction.  (1) It returns no
changes exactly when no diff line touches a target-extension file or some
diff line touches a file with a disallowed or missing extension; (2) a
returned changes text is the concatenation of contributions of
target-extension lines only; (3) when it returns no changes, the pipeline
produces no Record for the commit. -/
theorem C5_purity (cfg : Config) (r : Repo) (ct pt : Nat) (lines : List DiffLine)
    (hd : r.diff pt ct = some lines) :
    (get_commit_changes cfg r ct pt = .ok none ↔
      (lines.any (touchesTarget cfg) = false ∨
        lines.any (touchesForeign cfg) = true)) ∧
    (∀ str, get_commit_changes cfg r ct pt = .ok (some str) →
      str = pureChangesStr cfg lines) ∧
    (∀ processed c parent rcd, r.find (c.parents.headD 0) = some parent →
      get_commit_changes cfg r c.tree parent.tree = .ok none →
      process_commit cfg r processed c ≠ .ok (some rcd)) := by
  refine ⟨?_, ?_, ?_⟩
  · rw [get_commit_changes_eq cfg r hd]
    by_cases hcond :
        (!lines.any (touchesTarget cfg) || lines.any (touchesForeign cfg)) = true
    · rw [if_pos hcond]
      simp only [Bool.or_eq_true, Bool.not_eq_true'] at hcond
      exact iff_of_true rfl hcond
    · rw [if_neg hcond]
      simp only [Bool.or_eq_true, Bool.not_eq_true'] at hcond
      exact iff_of_false (by simp) hcond
  · intro str h
    rw [get_commit_changes_eq cfg r hd] at h
    split at h
    · cases h
    · simp only [Except.ok.injEq, Option.some.injEq] at h
      exact h.symm
  · intro processed c parent rcd hfind hnone hacc
    obtain ⟨parent', hfind', hsome⟩ := process_commit_accept hacc
    rw [hfind] at hfind'
    obtain rfl := Option.some.inj hfind'
    rw [hnone] at hsome
    cases hsome

/-- C5, witness: purity instantiated on Scenario A's diff: the extraction
does not return `none` there, since all three lines touch `a.py`. -/
theorem C5_witness :
    repoD.diff 20 10 = some linesD ∧
      (get_commit_changes cfgD repoD 10 20 = .ok none ↔
        (linesD.any (touchesTarget cfgD) = false ∨
          linesD.any (touchesForeign cfgD) = true)) :=
  ⟨rfl, (C5_purity cfgD repoD 10 20 linesD rfl).1⟩

/-- C6, counterexample: a failing tree lookup is not surfaced as a Reject
decision inside the pipeline — `process_commit` propagates it as an error
(the `?` on `commit.tree()`), so the result is `Err`, not `Ok(None)`. -/
theorem C6_counterexample :
    process_commit cfgB repoF [] commitF = .error () ∧
      process_commit cfgB repoF [] commitF ≠ .ok none := by
  refine ⟨rfl, fun h => ?_⟩
  rw [show process_commit cfgB repoF [] commitF = Except.error () from rfl] at h
  cases h

/-- C6 (amended): parent lookup failure and diff computation failure are
surfaced as Reject decisions (`Ok(None)`) inside the pipeline; a tree
lookup failure is instead propagated as an error out of `process_commit`,
but the traversal swallows any such error (`if let Ok(Some(record))`),
marks the commit processed and continues with the next history commit. -/
theorem C6_amended (cfg : Config) (r : Repo) :
    (∀ processed c, processed.contains c.id = false →
      (c.parents.length == 0) = false →
      r.find (c.parents.headD 0) = none →
      process_commit cfg r processed c = .ok none) ∧
    (∀ processed c parent, processed.contains c.id = false →
      (c.parents.length == 0) = false →
      r.find (c.parents.headD 0) = some parent →
      r.trees.contains c.tree = false →
      process_commit cfg r processed c = .error ()) ∧
    (∀ ct pt, r.diff pt ct = none → get_commit_changes cfg r ct pt = .error ()) ∧
    (∀ processed c parent msg, processed.contains c.id = false →
      (c.parents.length == 0) = false →
      r.find (c.parents.headD 0) = some parent →
      r.trees.contains c.tree = true → r.trees.contains parent.tree = true →
      (c.author_name.map (fun n => hasSubstr (lowerStr n) "bot")).getD false = false →
      get_commit_message cfg c = some msg →
      (strStarts msg "Merge pull request" || strStarts msg "Merge branch") = false →
      r.diff parent.tree c.tree = none →
      process_commit cfg r processed c = .ok none) ∧
    (∀ oid rest s c, s.nb_saved < cfg.size → r.find oid = some c →
      runLoop cfg r (oid :: rest) s = runLoop cfg r rest (stepCommit cfg r s c)) := by
  refine ⟨?_, ?_, ?_, ?_, ?_⟩
  · intro processed c h1 h2 h3
    unfold process_commit
    rw [if_neg (by rw [h1]; exact Bool.false_ne_true),
      if_neg (by rw [h2]; exact Bool.false_ne_true), h3]
  · intro processed c parent h1 h2 h3 h4
    unfold process_commit
    rw [if_neg (by rw [h1]; exact Bool.false_ne_true),
      if_neg (by rw [h2]; exact Bool.false_ne_true), h3]
    dsimp only
    rw [if_pos (by rw [h4]; rfl)]
  · intro ct pt h
    unfold get_commit_changes
    rw [h]
  · intro processed c parent msg h1 h2 h3 h4 h5 h6 h7 h8 h9
    have hgc : get_commit_changes cfg r c.tree parent.tree = .error () := by
      unfold get_commit_changes
      rw [h9]
    unfold process_commit
    rw [if_neg (by rw [h1]; exact Bool.false_ne_true),
      if_neg (by rw [h2]; exact Bool.false_ne_true), h3]
    dsimp only
    rw [if_neg (by rw [h4]; exact Bool.false_ne_true),
      if_neg (by rw [h5]; exact Bool.false_ne_true),
      if_neg (by rw [h6]; exact Bool.false_ne_true), h7]
    dsimp only
    rw [if_neg (by rw [h8]; exact Bool.false_ne_true), hgc]
  · intro oid rest s c hsz hfind
    rw [runLoop, if_neg (Nat.not_le.mpr hsz), hfind]

/-- C6, witness: the amended statement instantiated on `repoF`: the
missing-tree commit yields an error, the failing-diff commit a reject. -/
theorem C6_witness :
    process_commit cfgB repoF [] commitF = Except.error () ∧
      process_commit cfgB repoF [] commitFd = Except.ok none :=
  ⟨(C6_amended cfgB repoF).2.1 [] commitF commitFg rfl rfl rfl rfl,
    (C6_amended cfgB repoF).2.2.2.1 [] commitFd commitFg "fix diff bug"
      rfl rfl rfl rfl rfl rfl rfl rfl rfl⟩

/-- C7, counterexample: the pipeline evaluation does read the processed
set: the very same commit is accepted against an empty processed set and
rejected when the set contains its identifier, so its result is not
independent of the set. -/
theorem C7_counterexample :
    process_commit cfgD repoD [] commitD =
        .ok (some ⟨"fix bug", "+line1\n+line2\n+line3\n"⟩) ∧
      process_commit cfgD repoD [1] commitD = .ok none ∧
      process_commit cfgD repoD [] commitD ≠
        process_commit cfgD repoD [1] commitD := by
  refine ⟨rfl, rfl, fun h => ?_⟩
  rw [show process_commit cfgD repoD [] commitD =
        Except.ok (some ⟨"fix bug", "+line1\n+line2\n+line3\n"⟩) from rfl,
    show process_commit cfgD repoD [1] commitD = Except.ok none from rfl] at h
  cases h

/-- C7 (amended): the pipeline evaluation is pure and never updates the
processed set — it depends on it only through membership of the evaluated
commit's identifier (the first guard), and the processed set after a
traversal step is exactly the caller's marking, independent of the
evaluation outcomes. -/
theorem C7_amended (cfg : Config) (r : Repo) :
    (∀ p1 p2 c, p1.contains c.id = p2.contains c.id →
      process_commit cfg r p1 c = process_commit cfg r p2 c) ∧
    (∀ s c, (evalAndMark cfg r s c).processed = insertId s.processed c.id) ∧
    (∀ s c, 1 < c.parents.length →
      (stepCommit cfg r s c).processed =
        c.parents.foldl (markParent r) s.processed) := by
  refine ⟨?_, fun s c => evalAndMark_processed cfg r s c, ?_⟩
  · intro p1 p2 c h
    unfold process_commit
    rw [h]
  · intro s c hm
    unfold stepCommit
    rw [if_pos hm]
    exact foldParents_processed cfg r c.parents s

/-- C7, witness: two processed sets agreeing on Scenario A's commit give
the same evaluation result. -/
theorem C7_witness :
    process_commit cfgD repoD [5] commitD =
      process_commit cfgD repoD [7] commitD :=
  (C7_amended cfgD repoD).1 [5] [7] commitD rfl

/-- C8: for a merge commit whose parents are all resolvable, the visit
marks every parent identifier processed regardless of the evaluation
outcome, and every parent is either evaluated at this visit or had already
been marked processed before it; Scenario E — a two-parent merge with
parent 1 qualifying and parent 2 authored by a bot — saves exactly one
Record and marks both parent identifiers processed. -/
theorem C8_merge_parents_marked (cfg : Config) (r : Repo) (s : RunState)
    (c : Commit) (hm : 1 < c.parents.length)
    (hres : ∀ pid ∈ c.parents, (r.find pid).isSome) :
    (∀ pid ∈ c.parents, pid ∈ (stepCommit cfg r s c).processed ∧
      (pid ∈ (stepCommit cfg r s c).evaluated ∨ pid ∈ s.processed)) ∧
    run cfgB repoE = .ok stateE ∧
    stateE.records = [⟨"fix alpha bug", "+e\n"⟩] ∧
    (1 : Nat) ∈ stateE.processed ∧ (2 : Nat) ∈ stateE.processed := by
  refine ⟨?_, rfl, rfl, by decide, by decide⟩
  intro pid hp
  unfold stepCommit
  rw [if_pos hm]
  exact foldParents_marks hres pid hp

/-- C8, witness: the marking property instantiated on `repoE`'s head
merge and parent identifier 1 from the initial state. -/
theorem C8_witness :
    ((1 < mergeE.parents.length) ∧
      ∀ pid ∈ mergeE.parents, (Repo.find repoE pid).isSome) ∧
      (1 : Nat) ∈ (stepCommit cfgB repoE initState mergeE).processed :=
  ⟨⟨by decide, by decide⟩,
    ((C8_merge_parents_marked cfgB repoE initState mergeE (by decide)
      (by decide)).1 1 (by decide)).1⟩

/-- C9, counterexample: commit 1 of `repoB` is a merge commit visited by
the traversal (it is in the revwalk sequence), yet its identifier ends up
in the processed set — it was inserted when it was handled as a parent of
the head merge — so the reported processed total does not exclude every
merge commit reached during the walk. -/
theorem C9_counterexample :
    run cfgB repoB = .ok stateB ∧ (1 : Nat) ∈ stateB.processed ∧
      (1 : Nat) ∈ repoB.head_order ∧ Repo.find repoB 1 = some commitB1 ∧
      1 < commitB1.parents.length :=
  ⟨rfl, by decide, by decide, rfl, by decide⟩

/-- C9 (amended): the visit of a merge commit itself never inserts that
commit's own identifier into the processed set (only parent identifiers
are inserted); a merge commit's identifier can nevertheless enter the set
when the commit is reached as a parent of another merge. -/
theorem C9_amended (cfg : Config) (r : Repo) (s : RunState) (c : Commit)
    (hm : 1 < c.parents.length) (hself : c.id ∉ c.parents)
    (hproc : c.id ∉ s.processed) :
    c.id ∉ (stepCommit cfg r s c).processed := by
  unfold stepCommit
  rw [if_pos hm, foldParents_processed]
  intro h
  rcases foldParents_processed_mem h with h | h
  · exact hproc h
  · exact hself h

/-- C9, witness: the amended statement instantiated on `repoB`'s head
merge from the initial state. -/
theorem C9_witness :
    ((1 < commitB0.parents.length) ∧ (commitB0.id ∉ commitB0.parents) ∧
      (commitB0.id ∉ initState.processed)) ∧
      commitB0.id ∉ (stepCommit cfgB repoB initState commitB0).processed :=
  ⟨⟨by decide, by decide, by decide⟩,
    C9_amended cfgB repoB initState commitB0 (by decide) (by decide) (by decide)⟩

/-- C10: a diff line of a target-extension file whose content is not valid
UTF-8 contributes nothing to the accumulator (neither origin marker nor
content) while still setting the target-touched flag; consequently a
non-empty diff consisting only of such lines yields `Ok(Some(""))` — an
empty changes string — rather than `Ok(None)`. -/
theorem C10_invalid_utf8_lines (cfg : Config) (r : Repo) (ct pt : Nat)
    (lines : List DiffLine) (hd : r.diff pt ct = some lines)
    (hne : lines ≠ [])
    (hall : ∀ l ∈ lines, touchesTarget cfg l = true ∧ l.content = none) :
    (∀ acc l, touchesTarget cfg l = true → l.content = none →
      diffLineStep cfg acc l = (acc.1, true, acc.2.2)) ∧
    get_commit_changes cfg r ct pt = .ok (some "") := by
  constructor
  · intro acc l ht hc
    rw [diffLineStep_spec, contribStr_of_content_none hc,
      touchesForeign_of_target ht, ht]
    simp [String.append_empty]
  · rw [get_commit_changes_eq cfg r hd]
    have hT : lines.any (touchesTarget cfg) = true := by
      cases lines with
      | nil => exact absurd rfl hne
      | cons l ls =>
        have := (hall l (List.mem_cons_self l ls)).1
        simp [List.any_cons, this]
    have hF : lines.any (touchesForeign cfg) = false := by
      rw [List.any_eq_false]
      intro x hx
      rw [touchesForeign_of_target (hall x hx).1]
      exact Bool.false_ne_true
    have hP : pureChangesStr cfg lines = "" :=
      pureChangesStr_of_all_none (fun l hl => (hall l hl).2)
    rw [hT, hF, hP]
    rfl

/-- C10, witness: the empty-changes outcome instantiated on the diff
`linesG`, a single invalid-UTF-8 line in `g.py`. -/
theorem C10_witness :
    (repoG.diff 1 2 = some linesG ∧ linesG ≠ [] ∧
      ∀ l ∈ linesG, touchesTarget cfgD l = true ∧ l.content = none) ∧
      get_commit_changes cfgD repoG 2 1 = .ok (some "") :=
  ⟨⟨rfl, by decide, by decide⟩,
    (C10_invalid_utf8_lines cfgD repoG 2 1 linesG rfl (by decide) (by decide)).2⟩

end Gitex
